import Mathlib

/-!
Verification of the `gg` synchronization engine (src/git_commands.rs,
src/helpers.rs) against its natural-language specification.

The embedding is a shallow one: the git2 object store, index and working
directory are modelled as explicit finite data (association lists and a
directory tree), and each Rust function under verification is translated
into a Lean function over that data.  External libgit2 primitives that the
code merely consumes (fetch, merge analysis, merge-tree computation, commit
id allocation) are supplied as explicit oracle parameters, mirroring the
spec's "capability surface" view of the VCS engine.
-/

namespace GG

/-- Object identifiers of the VCS object store. -/
abbrev Oid := Nat

/-- Working-directory relative paths (rendered as strings, as in the source,
which compares paths through their string form). -/
abbrev FPath := String

/-! ### A flat file store (association list from path to content)

Used both for the working-directory files the conflict resolver touches and
for the stage-0 entries of the index.  `write` models `std::fs::write` /
`Index::add_path`: replace the entry in place when the key exists, append
otherwise. -/

structure FS where
  files : List (FPath × String)
deriving Repr, DecidableEq

def FS.lookup (fs : FS) (p : FPath) : Option String :=
  (fs.files.find? (fun e => e.1 == p)).map (·.2)

def FS.write (fs : FS) (p : FPath) (c : String) : FS :=
  ⟨(p, c) :: fs.files.filter (fun e => !(e.1 == p))⟩

/-- Keys (paths) of a file store. -/
def FS.keys (fs : FS) : List FPath := fs.files.map (·.1)

theorem FS.lookup_write_self (fs : FS) (p : FPath) (c : String) :
    (fs.write p c).lookup p = some c := by
  simp [FS.write, FS.lookup, List.find?_cons]

theorem find?_filter_ne (l : List (FPath × String)) (p q : FPath) (h : q ≠ p) :
    (l.filter (fun e => !(e.1 == p))).find? (fun e => e.1 == q) =
      l.find? (fun e => e.1 == q) := by
  induction l with
  | nil => simp
  | cons a l ih =>
    rcases ha : (a.1 == p) with _ | _
    · rcases haq : (a.1 == q) with _ | _
      · simp [List.filter_cons, List.find?_cons, ha, haq, ih]
      · simp [List.filter_cons, List.find?_cons, ha, haq]
    · have hap : a.1 = p := by simpa using ha
      have haq : (a.1 == q) = false := by
        simp only [beq_eq_false_iff_ne, hap]
        exact fun hpq => h hpq.symm
      simp [List.filter_cons, List.find?_cons, ha, haq, ih]

theorem FS.lookup_write_ne (fs : FS) (p q : FPath) (c : String) (h : q ≠ p) :
    (fs.write p c).lookup q = fs.lookup q := by
  have hpq : (p == q) = false := by
    simp only [beq_eq_false_iff_ne]
    exact fun hpq => h hpq.symm
  simp [FS.write, FS.lookup, List.find?_cons, hpq, find?_filter_ne fs.files p q h]

theorem FS.keys_write_nodup (fs : FS) (p : FPath) (c : String)
    (h : fs.keys.Nodup) : (fs.write p c).keys.Nodup := by
  unfold FS.keys FS.write
  simp only [List.map_cons, List.nodup_cons]
  constructor
  · intro hmem
    rcases List.mem_map.mp hmem with ⟨e, he, hk⟩
    have := List.of_mem_filter he
    simp [hk] at this
  · have hsub : (fs.files.filter (fun e => !(e.1 == p))).map (·.1) |>.Sublist (fs.files.map (·.1)) :=
      (List.filter_sublist _).map _
    exact h.sublist hsub

/-! ### Index, blobs, conflicts (git2 data consumed by `resolve_conflicts_ours`) -/

/-- One side of a conflict entry in the index (git2 `IndexEntry`, restricted
to the fields the code reads: `path` and `id`). -/
structure SideEntry where
  path : FPath
  oid : Oid
deriving Repr, DecidableEq

/-- A conflict record as returned by `Index::conflicts` (git2 `IndexConflict`):
optional base/our/their entries. -/
structure Conflict where
  base : Option SideEntry
  our : Option SideEntry
  their : Option SideEntry
deriving Repr, DecidableEq

/-- Does a conflict record carry an entry for path `p` on any side?
`Index::add_path` removes every conflict stage entry recorded for the path. -/
def Conflict.mentions (c : Conflict) (p : FPath) : Bool :=
  (match c.base with | some e => e.path == p | none => false) ||
  (match c.our with | some e => e.path == p | none => false) ||
  (match c.their with | some e => e.path == p | none => false)

/-- The staging index: stage-0 entries (path to staged blob content) plus the
unresolved conflict records. -/
structure GitIndex where
  staged : FS
  conflicts : List Conflict
deriving Repr, DecidableEq

def GitIndex.has_conflicts (idx : GitIndex) : Bool := !idx.conflicts.isEmpty

/-- Model of `Index::add_path p`: stage the working-tree content of `p` at stage 0 and
drop the conflict entries recorded for `p`.  The content staged is the one
just written to the working tree by the resolver. -/
def GitIndex.add_path (idx : GitIndex) (p : FPath) (content : String) : GitIndex :=
  { staged := idx.staged.write p content
    conflicts := idx.conflicts.filter (fun c => !(c.mentions p)) }

/-- The object store fragment the resolver reads: blob contents by id
(`Repository::find_blob`). -/
structure Repo where
  blobs : List (Oid × String)
deriving Repr, DecidableEq

def Repo.find_blob (r : Repo) (oid : Oid) : Option String :=
  (r.blobs.find? (fun e => e.1 == oid)).map (·.2)

/-- Per-path console output of `resolve_conflicts_ours`:
`savedTheirs p` for "Remote version of p saved to p.theirs",
`warnWriteFailed p` for the eprintln warning when writing `p.theirs` fails,
`remoteAbsent p` for "p (conflict: remote version was deleted or not
present)". -/
inductive Notice where
  | savedTheirs (path : FPath)
  | warnWriteFailed (path : FPath)
  | remoteAbsent (path : FPath)
deriving Repr, DecidableEq

/-- State threaded through the resolver: working-directory files, the index
being repaired, and the per-path notices printed so far. -/
structure ResolveState where
  fs : FS
  index : GitIndex
  log : List Notice
deriving Repr, DecidableEq

/-- One iteration of the conflict loop in `resolve_conflicts_ours`
(src/git_commands.rs:223-268).  `failW p` is the I/O oracle: does
`std::fs::write` to path `p` fail?  (`create_dir_all` is modelled as always
succeeding: the flat FS needs no parent directories.)  If the local side is
absent the iteration is a `continue`; otherwise the local blob is written to
the working tree (failure is fatal, as in the source) and the path staged;
then, if a remote side exists, its blob is written to `<path>.theirs`
(failure is only a warning). -/
def processConflict (repo : Repo) (failW : FPath → Bool)
    (st : ResolveState) (c : Conflict) : Except String ResolveState :=
  match c.our with
  | none => .ok st
  | some our =>
    match repo.find_blob our.oid with
    | none => .error "blob not found"
    | some content =>
      if failW our.path then .error "Failed to write file"
      else
        let fs1 := st.fs.write our.path content
        let idx1 := st.index.add_path our.path content
        match c.their with
        | some their =>
          match repo.find_blob their.oid with
          | none => .error "blob not found"
          | some tcontent =>
            let tp := our.path ++ ".theirs"
            if failW tp then
              .ok ⟨fs1, idx1, st.log ++ [.warnWriteFailed our.path]⟩
            else
              .ok ⟨fs1.write tp tcontent, idx1, st.log ++ [.savedTheirs our.path]⟩
        | none => .ok ⟨fs1, idx1, st.log ++ [.remoteAbsent our.path]⟩

/-- Model of `resolve_conflicts_ours` (src/git_commands.rs:213-271): snapshot the
conflict list, then run the loop over it, threading workdir + index + log. -/
def resolve_conflicts_ours (repo : Repo) (failW : FPath → Bool)
    (fs : FS) (idx : GitIndex) : Except String ResolveState :=
  idx.conflicts.foldlM (processConflict repo failW) ⟨fs, idx, []⟩

/-! ### Accessors and hypotheses used in the resolver theorems -/

/-- Path of the local side of a conflict (empty for a conflict with no local
side; only used under a hypothesis that the side exists). -/
def ourPathD (c : Conflict) : FPath := (c.our.map (·.path)).getD ""

/-- Content of the local side's blob (defaulted; used under hypotheses). -/
def ourBlobD (repo : Repo) (c : Conflict) : String :=
  ((c.our.map (·.oid)).bind repo.find_blob).getD ""

/-- Content of the remote side's blob (defaulted; used under hypotheses). -/
def theirBlobD (repo : Repo) (c : Conflict) : String :=
  ((c.their.map (·.oid)).bind repo.find_blob).getD ""

/-- The notice a single conflict contributes to the console log, if any:
mirrors the branch structure of the loop body. -/
def noticeOf (_repo : Repo) (failW : FPath → Bool) (c : Conflict) : Option Notice :=
  match c.our with
  | none => none
  | some our =>
    match c.their with
    | some _ =>
      if failW (our.path ++ ".theirs") then some (.warnWriteFailed our.path)
      else some (.savedTheirs our.path)
    | none => some (.remoteAbsent our.path)

/-- A conflict the loop body can process without a fatal error: the local
side, if present, has a retrievable blob and a writable working-tree path,
and the remote side, if present, has a retrievable blob. -/
def StepOK (repo : Repo) (failW : FPath → Bool) (c : Conflict) : Prop :=
  c.our = none ∨
    ∃ o b, c.our = some o ∧ repo.find_blob o.oid = some b ∧ failW o.path = false ∧
      (∀ t, c.their = some t → ∃ tb, repo.find_blob t.oid = some tb)

/-- A conflict where both sides are present and processable (the situation of
the C1/C5 spec sentences). -/
def BothSidesOK (repo : Repo) (failW : FPath → Bool) (c : Conflict) : Prop :=
  ∃ o t b tb, c.our = some o ∧ c.their = some t ∧
    repo.find_blob o.oid = some b ∧ repo.find_blob t.oid = some tb ∧
    failW o.path = false ∧ failW (o.path ++ ".theirs") = false

/-- Rust `str::ends_with`, modelled as a suffix test on the character data. -/
def ends_with (s suf : String) : Bool := suf.data.isSuffixOf s.data

theorem ends_with_append (x s : String) : ends_with (x ++ s) s = true := by
  simp [ends_with, List.isSuffixOf_iff_suffix, String.data_append]

theorem ne_append_self_suffix {p : String} (s : String) (h : ends_with p s = false) :
    ∀ x : String, p ≠ x ++ s := by
  intro x he
  rw [he, ends_with_append] at h
  exact Bool.true_eq_false.mp h

theorem string_append_right_ne {a b : String} (s : String) (h : a ≠ b) :
    a ++ s ≠ b ++ s := by
  intro he
  apply h
  have hd : a.data ++ s.data = b.data ++ s.data := by
    have := congrArg String.data he
    simpa [String.data_append] using this
  exact String.ext (List.append_cancel_right hd)

/-- Number of working-directory files whose path ends in `.theirs`. -/
def theirsCount (fs : FS) : Nat :=
  (fs.files.filter (fun e => ends_with e.1 ".theirs")).length

/-! ### Master lemma for the resolver loop

`fold_resolve_ok` characterises, for any run of the loop over a conflict
list whose every element is processable (`StepOK`), the final conflict list,
console log, and staged-key uniqueness.  The claims C1, C5, C6 and C9 are
instances. -/

theorem fold_resolve_ok (repo : Repo) (failW : FPath → Bool) :
    ∀ (cs : List Conflict) (st : ResolveState),
    (∀ c ∈ cs, StepOK repo failW c) →
    ∃ st', cs.foldlM (processConflict repo failW) st = .ok st' ∧
      st'.index.conflicts = st.index.conflicts.filter
        (fun k => cs.all (fun c => !(c.our.isSome && k.mentions (ourPathD c)))) ∧
      st'.log = st.log ++ cs.filterMap (noticeOf repo failW) ∧
      (st.index.staged.keys.Nodup → st'.index.staged.keys.Nodup) := by
  intro cs
  induction cs with
  | nil =>
    intro st _
    exact ⟨st, rfl, by simp, by simp, fun h => h⟩
  | cons c cs ih =>
    intro st hok
    rcases hok c (List.mem_cons_self c cs) with hnone | ⟨o, b, hour, hblob, hfail, htheir⟩
    · -- local side absent: the iteration is a `continue`
      have hstep : processConflict repo failW st c = .ok st := by
        simp [processConflict, hnone]
      rcases ih st (fun c' hc' => hok c' (List.mem_cons_of_mem c hc')) with
        ⟨st', hfold, hconf, hlog, hnd⟩
      refine ⟨st', ?_, ?_, ?_, hnd⟩
      · simpa [List.foldlM_cons, hstep] using hfold
      · rw [hconf]
        apply List.filter_congr
        intro k _
        simp [List.all_cons, hnone]
      · rw [hlog]
        simp [List.filterMap_cons, noticeOf, hnone]
    · -- local side present: write "ours", stage it, then handle "theirs"
      have hstep : ∃ fs₂ lg, processConflict repo failW st c =
          .ok ⟨fs₂, st.index.add_path o.path b, st.log ++ lg⟩ ∧
          lg = (noticeOf repo failW c).toList := by
        rcases ht : c.their with _ | t
        · exact ⟨st.fs.write o.path b, [.remoteAbsent o.path],
            by simp [processConflict, hour, hblob, hfail, ht],
            by simp [noticeOf, hour, ht]⟩
        · rcases htheir t ht with ⟨tb, htb⟩
          rcases hfw : failW (o.path ++ ".theirs") with _ | _
          · exact ⟨(st.fs.write o.path b).write (o.path ++ ".theirs") tb,
              [.savedTheirs o.path],
              by simp [processConflict, hour, hblob, hfail, ht, htb, hfw],
              by simp [noticeOf, hour, ht, hfw]⟩
          · exact ⟨st.fs.write o.path b, [.warnWriteFailed o.path],
              by simp [processConflict, hour, hblob, hfail, ht, htb, hfw],
              by simp [noticeOf, hour, ht, hfw]⟩
      rcases hstep with ⟨fs₂, lg, hstep, hlg⟩
      rcases ih ⟨fs₂, st.index.add_path o.path b, st.log ++ lg⟩
          (fun c' hc' => hok c' (List.mem_cons_of_mem c hc')) with
        ⟨st', hfold, hconf, hlog, hnd⟩
      refine ⟨st', ?_, ?_, ?_, ?_⟩
      · simpa [List.foldlM_cons, hstep] using hfold
      · rw [hconf]
        show (st.index.add_path o.path b).conflicts.filter _ = _
        unfold GitIndex.add_path
        rw [List.filter_filter]
        apply List.filter_congr
        intro k _
        simp [List.all_cons, hour, ourPathD, Bool.and_comm]
      · rw [hlog, hlg]
        show st.log ++ (noticeOf repo failW c).toList ++ _ = _
        rw [List.append_assoc, List.filterMap_cons]
        rcases noticeOf repo failW c with _ | n <;> simp
      · intro hnodup
        apply hnd
        show ((st.index.add_path o.path b).staged).keys.Nodup
        unfold GitIndex.add_path
        exact FS.keys_write_nodup _ _ _ hnodup

/-- Companion to `fold_resolve_ok`: the contents written by the loop, for a
conflict list whose resolved paths are pairwise distinct and are not
themselves `.theirs` artifacts.  Gives the final working-tree and staged
contents at each resolved path, the `.theirs` artifact contents, and frame
conditions for all other paths. -/
theorem fold_resolve_written (repo : Repo) (failW : FPath → Bool) :
    ∀ (cs : List Conflict) (st : ResolveState),
    (∀ c ∈ cs, StepOK repo failW c) →
    cs.Pairwise (fun a b => a.our.isSome → b.our.isSome → ourPathD a ≠ ourPathD b) →
    (∀ c ∈ cs, c.our.isSome → ends_with (ourPathD c) ".theirs" = false) →
    ∃ st', cs.foldlM (processConflict repo failW) st = .ok st' ∧
      (∀ c ∈ cs, c.our.isSome →
        st'.index.staged.lookup (ourPathD c) = some (ourBlobD repo c) ∧
        st'.fs.lookup (ourPathD c) = some (ourBlobD repo c)) ∧
      (∀ c ∈ cs, BothSidesOK repo failW c →
        st'.fs.lookup (ourPathD c ++ ".theirs") = some (theirBlobD repo c)) ∧
      (∀ q, (∀ c ∈ cs, c.our.isSome → (q ≠ ourPathD c ∧ q ≠ ourPathD c ++ ".theirs")) →
        st'.fs.lookup q = st.fs.lookup q) ∧
      (∀ q, (∀ c ∈ cs, c.our.isSome → q ≠ ourPathD c) →
        st'.index.staged.lookup q = st.index.staged.lookup q) := by
  intro cs
  induction cs with
  | nil =>
    intro st _ _ _
    exact ⟨st, rfl, by simp, by simp, fun _ _ => rfl, fun _ _ => rfl⟩
  | cons c cs ih =>
    intro st hok hpw hsuf
    have hpw' := (List.pairwise_cons.mp hpw).2
    have hhead := (List.pairwise_cons.mp hpw).1
    have hok' : ∀ c' ∈ cs, StepOK repo failW c' :=
      fun c' hc' => hok c' (List.mem_cons_of_mem c hc')
    have hsuf' : ∀ c' ∈ cs, c'.our.isSome → ends_with (ourPathD c') ".theirs" = false :=
      fun c' hc' => hsuf c' (List.mem_cons_of_mem c hc')
    rcases hok c (List.mem_cons_self c cs) with hnone | ⟨o, b, hour, hblob, hfail, htheir⟩
    · -- local side absent: skipped, state unchanged
      have hstep : processConflict repo failW st c = .ok st := by
        simp [processConflict, hnone]
      rcases ih st hok' hpw' hsuf' with ⟨st', hfold, hlk, htlk, hfr, hsfr⟩
      refine ⟨st', by simpa [List.foldlM_cons, hstep] using hfold, ?_, ?_, ?_, ?_⟩
      · intro c' hc' hsome
        rcases List.mem_cons.mp hc' with h | h
        · subst h; simp [hnone] at hsome
        · exact hlk c' h hsome
      · intro c' hc' hboth
        rcases List.mem_cons.mp hc' with h | h
        · subst h
          rcases hboth with ⟨o', _, _, _, ho', _⟩
          simp [hnone] at ho'
        · exact htlk c' h hboth
      · intro q hq
        exact hfr q (fun c' hc' => hq c' (List.mem_cons_of_mem c hc'))
      · intro q hq
        exact hsfr q (fun c' hc' => hq c' (List.mem_cons_of_mem c hc'))
    · -- local side present
      have hpath : ourPathD c = o.path := by simp [ourPathD, hour]
      have hsome : c.our.isSome := by simp [hour]
      have hnots : ends_with o.path ".theirs" = false := by
        have := hsuf c (List.mem_cons_self c cs) hsome
        rwa [hpath] at this
      -- separation of the head's paths from the tail's resolved paths
      have hsep : ∀ c' ∈ cs, c'.our.isSome →
          o.path ≠ ourPathD c' ∧ o.path ≠ ourPathD c' ++ ".theirs" ∧
          o.path ++ ".theirs" ≠ ourPathD c' ∧
          o.path ++ ".theirs" ≠ ourPathD c' ++ ".theirs" := by
        intro c' hc' hs'
        have hne : o.path ≠ ourPathD c' := by
          have := hhead c' hc' hsome hs'
          rwa [hpath] at this
        have hnots' := hsuf' c' hc' hs'
        refine ⟨hne, ?_, ?_, string_append_right_ne _ hne⟩
        · exact ne_append_self_suffix _ hnots _
        · exact fun h => ne_append_self_suffix _ hnots' _ h.symm
      -- the state after processing the head conflict
      have hstep : ∃ fs₂, processConflict repo failW st c =
          .ok ⟨fs₂, st.index.add_path o.path b,
               st.log ++ (noticeOf repo failW c).toList⟩ ∧
          fs₂.lookup o.path = some b ∧
          (BothSidesOK repo failW c →
            fs₂.lookup (o.path ++ ".theirs") = some (theirBlobD repo c)) ∧
          (∀ q, q ≠ o.path → q ≠ o.path ++ ".theirs" → fs₂.lookup q = st.fs.lookup q) := by
        have hops : o.path ≠ o.path ++ ".theirs" := ne_append_self_suffix _ hnots _
        rcases ht : c.their with _ | t
        · refine ⟨st.fs.write o.path b,
            by simp [processConflict, hour, hblob, hfail, ht, noticeOf], ?_, ?_, ?_⟩
          · exact FS.lookup_write_self _ _ _
          · rintro ⟨o', t', _, _, _, ht', _⟩
            rw [ht] at ht'; exact absurd ht' (by simp)
          · intro q hq _; exact FS.lookup_write_ne _ _ _ _ hq
        · rcases htheir t ht with ⟨tb, htb⟩
          rcases hfw : failW (o.path ++ ".theirs") with _ | _
          · refine ⟨(st.fs.write o.path b).write (o.path ++ ".theirs") tb,
              by simp [processConflict, hour, hblob, hfail, ht, htb, hfw, noticeOf], ?_, ?_, ?_⟩
            · rw [FS.lookup_write_ne _ _ _ _ hops]
              exact FS.lookup_write_self _ _ _
            · intro _
              rw [FS.lookup_write_self]
              simp [theirBlobD, ht, htb]
            · intro q hq hqt
              rw [FS.lookup_write_ne _ _ _ _ hqt, FS.lookup_write_ne _ _ _ _ hq]
          · refine ⟨st.fs.write o.path b,
              by simp [processConflict, hour, hblob, hfail, ht, htb, hfw, noticeOf], ?_, ?_, ?_⟩
            · exact FS.lookup_write_self _ _ _
            · rintro ⟨o', t', b', tb', ho', ht', _, _, _, hfw'⟩
              have : o' = o := by rw [hour] at ho'; exact (Option.some_inj.mp ho').symm
              subst this
              rw [hfw] at hfw'
              exact absurd hfw' (by simp)
            · intro q hq _; exact FS.lookup_write_ne _ _ _ _ hq
      rcases hstep with ⟨fs₂, hstep, hfs₂o, hfs₂t, hfs₂f⟩
      rcases ih ⟨fs₂, st.index.add_path o.path b,
          st.log ++ (noticeOf repo failW c).toList⟩ hok' hpw' hsuf' with
        ⟨st', hfold, hlk, htlk, hfr, hsfr⟩
      have hbD : ourBlobD repo c = b := by simp [ourBlobD, hour, hblob]
      refine ⟨st', by simpa [List.foldlM_cons, hstep] using hfold, ?_, ?_, ?_, ?_⟩
      · intro c' hc' hs'
        rcases List.mem_cons.mp hc' with h | h
        · subst h
          rw [hpath, hbD]
          constructor
          · rw [hsfr o.path (fun c'' hc'' hs'' => (hsep c'' hc'' hs'').1)]
            show (st.index.staged.write o.path b).lookup o.path = some b
            exact FS.lookup_write_self _ _ _
          · rw [hfr o.path (fun c'' hc'' hs'' =>
              ⟨(hsep c'' hc'' hs'').1, (hsep c'' hc'' hs'').2.1⟩)]
            exact hfs₂o
        · exact hlk c' h hs'
      · intro c' hc' hboth
        rcases List.mem_cons.mp hc' with h | h
        · subst h
          rw [hpath]
          rw [hfr (o.path ++ ".theirs") (fun c'' hc'' hs'' =>
            ⟨(hsep c'' hc'' hs'').2.2.1, (hsep c'' hc'' hs'').2.2.2⟩)]
          exact hfs₂t hboth
        · exact htlk c' h hboth
      · intro q hq
        have hqc := hq c (List.mem_cons_self c cs) hsome
        rw [hpath] at hqc
        rw [hfr q (fun c'' hc'' hs'' => hq c'' (List.mem_cons_of_mem c hc'') hs'')]
        exact hfs₂f q hqc.1 hqc.2
      · intro q hq
        have hqc := hq c (List.mem_cons_self c cs) hsome
        rw [hpath] at hqc
        rw [hsfr q (fun c'' hc'' hs'' => hq c'' (List.mem_cons_of_mem c hc'') hs'')]
        show (st.index.staged.write o.path b).lookup q = st.index.staged.lookup q
        exact FS.lookup_write_ne _ _ _ _ hqc

theorem StepOK_of_both {repo : Repo} {failW : FPath → Bool} {c : Conflict}
    (h : BothSidesOK repo failW c) : StepOK repo failW c := by
  rcases h with ⟨o, t, b, tb, hour, ht, hblob, htb, hfail, _⟩
  exact Or.inr ⟨o, b, hour, hblob, hfail, fun t' ht' => by
    rw [ht] at ht'
    exact ⟨tb, (Option.some_inj.mp ht') ▸ htb⟩⟩

theorem theirsCount_write_not_theirs (fs : FS) (p : FPath) (c : String)
    (h : ends_with p ".theirs" = false) :
    theirsCount (fs.write p c) = theirsCount fs := by
  unfold theirsCount FS.write
  have hp : ends_with p ".theirs" = false := h
  simp only [List.filter_cons, hp, Bool.false_eq_true, if_false]
  rw [List.filter_filter]
  congr 1
  apply List.filter_congr
  intro e _
  rcases hs : ends_with e.1 ".theirs" with _ | _
  · simp
  · have : (e.1 == p) = false := by
      simp only [beq_eq_false_iff_ne]
      intro heq
      rw [heq, h] at hs
      exact Bool.false_ne_true hs
    simp [this]

theorem theirsCount_write_fresh_theirs (fs : FS) (p : FPath) (c : String)
    (hs : ends_with p ".theirs" = true) (hfresh : fs.lookup p = none) :
    theirsCount (fs.write p c) = theirsCount fs + 1 := by
  unfold theirsCount FS.write
  have hall : ∀ e ∈ fs.files, (!(e.1 == p)) = true := by
    intro e he
    have hfind : fs.files.find? (fun e => e.1 == p) = none := by
      unfold FS.lookup at hfresh
      rcases hf : fs.files.find? (fun e => e.1 == p) with _ | _
      · exact hf
      · rw [hf] at hfresh; simp at hfresh
    have := List.find?_eq_none.mp hfind e he
    simpa using this
  rw [List.filter_eq_self.mpr hall]
  simp [List.filter_cons, hs, Nat.add_comm]

/-- Companion to `fold_resolve_ok` for the artifact count: over a list of
both-sided conflicts with pairwise-distinct, non-`.theirs` paths whose
artifacts are not yet on disk, the loop adds exactly one `.theirs` file per
conflict. -/
theorem fold_resolve_count (repo : Repo) (failW : FPath → Bool) :
    ∀ (cs : List Conflict) (st : ResolveState),
    (∀ c ∈ cs, BothSidesOK repo failW c) →
    cs.Pairwise (fun a b => ourPathD a ≠ ourPathD b) →
    (∀ c ∈ cs, ends_with (ourPathD c) ".theirs" = false) →
    (∀ c ∈ cs, st.fs.lookup (ourPathD c ++ ".theirs") = none) →
    ∃ st', cs.foldlM (processConflict repo failW) st = .ok st' ∧
      theirsCount st'.fs = theirsCount st.fs + cs.length := by
  intro cs
  induction cs with
  | nil =>
    intro st _ _ _ _
    exact ⟨st, rfl, by simp⟩
  | cons c cs ih =>
    intro st hok hpw hsuf hfresh
    rcases hok c (List.mem_cons_self c cs) with ⟨o, t, b, tb, hour, ht, hblob, htb, hfail, hfw⟩
    have hpath : ourPathD c = o.path := by simp [ourPathD, hour]
    have hnots : ends_with o.path ".theirs" = false := by
      have := hsuf c (List.mem_cons_self c cs); rwa [hpath] at this
    have hops : o.path ≠ o.path ++ ".theirs" := ne_append_self_suffix _ hnots _
    have hstep : processConflict repo failW st c =
        .ok ⟨(st.fs.write o.path b).write (o.path ++ ".theirs") tb,
             st.index.add_path o.path b,
             st.log ++ [.savedTheirs o.path]⟩ := by
      simp [processConflict, hour, hblob, hfail, ht, htb, hfw]
    have hfreshc : st.fs.lookup (o.path ++ ".theirs") = none := by
      have := hfresh c (List.mem_cons_self c cs); rwa [hpath] at this
    have hcount₂ : theirsCount ((st.fs.write o.path b).write (o.path ++ ".theirs") tb) =
        theirsCount st.fs + 1 := by
      rw [theirsCount_write_fresh_theirs _ _ _ (ends_with_append _ _)
        (by rw [FS.lookup_write_ne _ _ _ _ (fun h => hops h.symm)]; exact hfreshc)]
      rw [theirsCount_write_not_theirs _ _ _ hnots]
    have hfresh' : ∀ c' ∈ cs,
        ((st.fs.write o.path b).write (o.path ++ ".theirs") tb).lookup
          (ourPathD c' ++ ".theirs") = none := by
      intro c' hc'
      have hne : o.path ≠ ourPathD c' := by
        have := (List.pairwise_cons.mp hpw).1 c' hc'; rwa [hpath] at this
      have hnots' : ends_with (ourPathD c') ".theirs" = false :=
        hsuf c' (List.mem_cons_of_mem c hc')
      rw [FS.lookup_write_ne _ _ _ _ (string_append_right_ne _ (fun h => hne h.symm))]
      rw [FS.lookup_write_ne _ _ _ _ (fun h => ne_append_self_suffix _ hnots _ h.symm)]
      exact hfresh c' (List.mem_cons_of_mem c hc')
    rcases ih ⟨(st.fs.write o.path b).write (o.path ++ ".theirs") tb,
        st.index.add_path o.path b, st.log ++ [.savedTheirs o.path]⟩
        (fun c' hc' => hok c' (List.mem_cons_of_mem c hc'))
        (List.pairwise_cons.mp hpw).2
        (fun c' hc' => hsuf c' (List.mem_cons_of_mem c hc'))
        hfresh' with ⟨st', hfold, hcnt⟩
    refine ⟨st', by simpa [List.foldlM_cons, hstep] using hfold, ?_⟩
    rw [hcnt]
    show theirsCount _ + cs.length = theirsCount st.fs + (c :: cs).length
    rw [hcount₂]
    simp [List.length_cons]
    ring

/-- A conflict with a local side always mentions its own resolved path. -/
theorem mentions_own_path {c : Conflict} {o : SideEntry} (hour : c.our = some o) :
    c.mentions (ourPathD c) = true := by
  simp [Conflict.mentions, ourPathD, hour]

/-- C1: running `resolve_conflicts_ours` on an index whose N conflicted paths
all have content on both sides (pairwise-distinct paths that are not
themselves `.theirs` artifacts, starting from a working directory holding no
`.theirs` files) succeeds, leaves the index with 0 conflicts, stages each
original path, puts the pre-resolution "our" blob bytes at each original
path on disk and the pre-resolution "their" blob bytes at `<path>.theirs`,
and leaves exactly N `.theirs` files in the working directory. -/
theorem resolve_conflicts_ours_both_sides
    (repo : Repo) (failW : FPath → Bool) (fs : FS) (idx : GitIndex)
    (hok : ∀ c ∈ idx.conflicts, BothSidesOK repo failW c)
    (hpw : idx.conflicts.Pairwise (fun a b => ourPathD a ≠ ourPathD b))
    (hsuf : ∀ c ∈ idx.conflicts, ends_with (ourPathD c) ".theirs" = false)
    (hclean : ∀ q, ends_with q ".theirs" = true → fs.lookup q = none) :
    ∃ st', resolve_conflicts_ours repo failW fs idx = .ok st' ∧
      st'.index.conflicts = [] ∧
      (∀ c ∈ idx.conflicts,
        st'.fs.lookup (ourPathD c) = some (ourBlobD repo c) ∧
        st'.fs.lookup (ourPathD c ++ ".theirs") = some (theirBlobD repo c) ∧
        st'.index.staged.lookup (ourPathD c) = some (ourBlobD repo c)) ∧
      theirsCount st'.fs = idx.conflicts.length := by
  have hok' : ∀ c ∈ idx.conflicts, StepOK repo failW c :=
    fun c hc => StepOK_of_both (hok c hc)
  have hpw' : idx.conflicts.Pairwise
      (fun a b => a.our.isSome → b.our.isSome → ourPathD a ≠ ourPathD b) :=
    hpw.imp (fun h _ _ => h)
  have hsuf' : ∀ c ∈ idx.conflicts, c.our.isSome →
      ends_with (ourPathD c) ".theirs" = false := fun c hc _ => hsuf c hc
  rcases fold_resolve_ok repo failW idx.conflicts ⟨fs, idx, []⟩ hok' with
    ⟨st', hfold, hconf, _, _⟩
  rcases fold_resolve_written repo failW idx.conflicts ⟨fs, idx, []⟩ hok' hpw' hsuf' with
    ⟨stW, hfoldW, hlk, htlk, _, _⟩
  rcases fold_resolve_count repo failW idx.conflicts ⟨fs, idx, []⟩ hok hpw hsuf
      (fun c _ => hclean _ (ends_with_append _ _)) with
    ⟨stC, hfoldC, hcnt⟩
  have he1 : stW = st' := Except.ok.inj (hfoldW.symm.trans hfold)
  have he2 : stC = st' := Except.ok.inj (hfoldC.symm.trans hfold)
  rw [he1] at hlk htlk
  rw [he2] at hcnt
  have hzero : theirsCount fs = 0 := by
    unfold theirsCount
    rw [List.filter_eq_nil_iff.mpr, List.length_nil]
    intro e he hsuffix
    have hfind : (fs.files.find? (fun x => x.1 == e.1)).isSome := by
      rw [List.find?_isSome]
      exact ⟨e, he, by simp⟩
    have := hclean e.1 hsuffix
    unfold FS.lookup at this
    rcases hf : fs.files.find? (fun x => x.1 == e.1) with _ | _
    · rw [hf] at hfind; simp at hfind
    · rw [hf] at this; simp at this
  rw [show ({ fs := fs, index := idx, log := [] } : ResolveState).fs = fs from rfl,
    hzero, Nat.zero_add] at hcnt
  refine ⟨st', hfold, ?_, ?_, hcnt⟩
  · rw [hconf]
    apply List.filter_eq_nil_iff.mpr
    intro k hk
    rcases hok k hk with ⟨o, t, b, tb, hour, _, _, _, _, _⟩
    intro hall
    have := List.all_eq_true.mp hall k hk
    rw [mentions_own_path hour] at this
    simp [hour] at this
  · intro c hc
    rcases hok c hc with ⟨o, t, b, tb, hour, ht, _, _, _, _⟩
    have hsome : c.our.isSome := by simp [hour]
    exact ⟨(hlk c hc hsome).2, htlk c hc (hok c hc), (hlk c hc hsome).1⟩

/-- Witness for C1: two both-sided conflicts on paths `a` and `b` resolve to
an empty conflict list, the expected file contents, and exactly two
`.theirs` artifacts. -/
theorem resolve_conflicts_ours_both_sides_witness :
    (∀ c ∈ (GitIndex.mk ⟨[]⟩
        [⟨none, some ⟨"a", 1⟩, some ⟨"a", 2⟩⟩,
         ⟨none, some ⟨"b", 3⟩, some ⟨"b", 4⟩⟩]).conflicts,
      BothSidesOK ⟨[(1, "ourA"), (2, "theirA"), (3, "ourB"), (4, "theirB")]⟩
        (fun _ => false) c) ∧
    (∃ st', resolve_conflicts_ours
        ⟨[(1, "ourA"), (2, "theirA"), (3, "ourB"), (4, "theirB")]⟩
        (fun _ => false) ⟨[]⟩
        (GitIndex.mk ⟨[]⟩
          [⟨none, some ⟨"a", 1⟩, some ⟨"a", 2⟩⟩,
           ⟨none, some ⟨"b", 3⟩, some ⟨"b", 4⟩⟩]) = .ok st' ∧
      st'.index.conflicts = [] ∧
      (∀ c ∈ (GitIndex.mk ⟨[]⟩
          [⟨none, some ⟨"a", 1⟩, some ⟨"a", 2⟩⟩,
           ⟨none, some ⟨"b", 3⟩, some ⟨"b", 4⟩⟩]).conflicts,
        st'.fs.lookup (ourPathD c) =
          some (ourBlobD ⟨[(1, "ourA"), (2, "theirA"), (3, "ourB"), (4, "theirB")]⟩ c) ∧
        st'.fs.lookup (ourPathD c ++ ".theirs") =
          some (theirBlobD ⟨[(1, "ourA"), (2, "theirA"), (3, "ourB"), (4, "theirB")]⟩ c) ∧
        st'.index.staged.lookup (ourPathD c) =
          some (ourBlobD ⟨[(1, "ourA"), (2, "theirA"), (3, "ourB"), (4, "theirB")]⟩ c)) ∧
      theirsCount st'.fs = (GitIndex.mk ⟨[]⟩
        [⟨none, some ⟨"a", 1⟩, some ⟨"a", 2⟩⟩,
         ⟨none, some ⟨"b", 3⟩, some ⟨"b", 4⟩⟩]).conflicts.length) := by
  have hok : ∀ c ∈ (GitIndex.mk ⟨[]⟩
      [⟨none, some ⟨"a", 1⟩, some ⟨"a", 2⟩⟩,
       ⟨none, some ⟨"b", 3⟩, some ⟨"b", 4⟩⟩]).conflicts,
      BothSidesOK ⟨[(1, "ourA"), (2, "theirA"), (3, "ourB"), (4, "theirB")]⟩
        (fun _ => false) c := by
    intro c hc
    rcases List.mem_cons.mp hc with h | h
    · subst h
      exact ⟨⟨"a", 1⟩, ⟨"a", 2⟩, "ourA", "theirA", rfl, rfl, rfl, rfl, rfl, rfl⟩
    · rcases List.mem_cons.mp h with h' | h'
      · subst h'
        exact ⟨⟨"b", 3⟩, ⟨"b", 4⟩, "ourB", "theirB", rfl, rfl, rfl, rfl, rfl, rfl⟩
      · simp at h'
  refine ⟨hok, resolve_conflicts_ours_both_sides _ _ _ _ hok ?_ (by decide)
    (fun _ _ => rfl)⟩
  decide

/-- Counterexample to C5 as stated: an index with one conflict whose local
("our") side is absent is left with that conflict (1 conflict, not 0) after
the resolver runs. -/
theorem resolver_zero_conflicts_cex :
    resolve_conflicts_ours ⟨[(1, "x")]⟩ (fun _ => false) ⟨[]⟩
      (GitIndex.mk ⟨[]⟩ [⟨none, none, some ⟨"f", 1⟩⟩]) =
      .ok ⟨⟨[]⟩, GitIndex.mk ⟨[]⟩ [⟨none, none, some ⟨"f", 1⟩⟩], []⟩ ∧
    (GitIndex.mk ⟨[]⟩ [⟨none, none, some ⟨"f", 1⟩⟩]).conflicts.length ≠ 0 := by
  exact ⟨rfl, by decide⟩

/-- C5 (amended): after the resolver runs on an index in which every
conflict record carries a processable local ("our") side, the index reports
zero conflicts, and staged paths stay duplicate-free (no path has more than
one staged entry). -/
theorem resolver_zero_conflicts_amended
    (repo : Repo) (failW : FPath → Bool) (fs : FS) (idx : GitIndex)
    (hok : ∀ c ∈ idx.conflicts, StepOK repo failW c)
    (hsome : ∀ c ∈ idx.conflicts, c.our.isSome)
    (hnodup : idx.staged.keys.Nodup) :
    ∃ st', resolve_conflicts_ours repo failW fs idx = .ok st' ∧
      st'.index.conflicts = [] ∧
      st'.index.has_conflicts = false ∧
      st'.index.staged.keys.Nodup := by
  rcases fold_resolve_ok repo failW idx.conflicts ⟨fs, idx, []⟩ hok with
    ⟨st', hfold, hconf, _, hnd⟩
  have hempty : st'.index.conflicts = [] := by
    rw [hconf]
    apply List.filter_eq_nil_iff.mpr
    intro k hk
    rcases hok k hk with hnone | ⟨o, b, hour, _, _, _⟩
    · have := hsome k hk
      rw [hnone] at this
      simp at this
    · intro hall
      have := List.all_eq_true.mp hall k hk
      rw [mentions_own_path hour] at this
      simp [hour] at this
  exact ⟨st', hfold, hempty, by simp [GitIndex.has_conflicts, hempty], hnd hnodup⟩

/-- Witness for amended C5: one our-sided conflict resolves to an index with
zero conflicts and duplicate-free staged paths. -/
theorem resolver_zero_conflicts_amended_witness :
    (∀ c ∈ (GitIndex.mk ⟨[]⟩ [⟨none, some ⟨"f", 1⟩, none⟩]).conflicts,
      StepOK ⟨[(1, "x")]⟩ (fun _ => false) c) ∧
    (∃ st', resolve_conflicts_ours ⟨[(1, "x")]⟩ (fun _ => false) ⟨[]⟩
        (GitIndex.mk ⟨[]⟩ [⟨none, some ⟨"f", 1⟩, none⟩]) = .ok st' ∧
      st'.index.conflicts = [] ∧
      st'.index.has_conflicts = false ∧
      st'.index.staged.keys.Nodup) := by
  have hok : ∀ c ∈ (GitIndex.mk ⟨[]⟩ [⟨none, some ⟨"f", 1⟩, none⟩]).conflicts,
      StepOK ⟨[(1, "x")]⟩ (fun _ => false) c := by
    intro c hc
    rcases List.mem_cons.mp hc with h | h
    · subst h
      exact Or.inr ⟨⟨"f", 1⟩, "x", rfl, rfl, rfl, fun t ht => by simp at ht⟩
    · simp at h
  exact ⟨hok, resolver_zero_conflicts_amended _ _ ⟨[]⟩ _ hok (by decide) (by decide)⟩

/-- Counterexample to C6 as stated: a delete/modify conflict (local side
absent, remote side present) is skipped and left in the index, but the
resolver emits no per-path report for it — the log is empty, contradicting
"reports it to the caller". -/
theorem resolver_delete_modify_cex :
    resolve_conflicts_ours ⟨[(1, "remote-content")]⟩ (fun _ => false) ⟨[]⟩
      (GitIndex.mk ⟨[]⟩ [⟨none, none, some ⟨"g", 1⟩⟩]) =
      .ok ⟨⟨[]⟩, GitIndex.mk ⟨[]⟩ [⟨none, none, some ⟨"g", 1⟩⟩], []⟩ := by
  rfl

/-- C6 (amended): a conflicted path whose local side is absent is skipped by
the resolver: it stays in the index after the pass, and it contributes no
per-path notice to the console log (it is not reported). -/
theorem resolver_delete_modify_amended
    (repo : Repo) (failW : FPath → Bool) (fs : FS) (idx : GitIndex)
    (c₀ : Conflict) (t : SideEntry)
    (hok : ∀ c ∈ idx.conflicts, StepOK repo failW c)
    (hc₀ : c₀ ∈ idx.conflicts)
    (hour : c₀.our = none) (ht : c₀.their = some t)
    (hsep : ∀ c ∈ idx.conflicts, c.our.isSome → c₀.mentions (ourPathD c) = false) :
    ∃ st', resolve_conflicts_ours repo failW fs idx = .ok st' ∧
      c₀ ∈ st'.index.conflicts ∧
      noticeOf repo failW c₀ = none ∧
      st'.log = idx.conflicts.filterMap (noticeOf repo failW) := by
  rcases fold_resolve_ok repo failW idx.conflicts ⟨fs, idx, []⟩ hok with
    ⟨st', hfold, hconf, hlog, _⟩
  refine ⟨st', hfold, ?_, by simp [noticeOf, hour], by simpa using hlog⟩
  rw [hconf]
  apply List.mem_filter.mpr
  refine ⟨hc₀, List.all_eq_true.mpr ?_⟩
  intro c hc
  rcases hb : c.our.isSome with _ | _
  · simp [hb]
  · simp [hb, hsep c hc hb]

/-- Witness for amended C6: the skipped delete/modify conflict from the
counterexample stays in the index and produces no notice. -/
theorem resolver_delete_modify_amended_witness :
    (⟨none, none, some ⟨"g", 1⟩⟩ : Conflict) ∈
      (GitIndex.mk ⟨[]⟩ [⟨none, none, some ⟨"g", 1⟩⟩]).conflicts ∧
    (∃ st', resolve_conflicts_ours ⟨[(1, "remote-content")]⟩ (fun _ => false) ⟨[]⟩
        (GitIndex.mk ⟨[]⟩ [⟨none, none, some ⟨"g", 1⟩⟩]) = .ok st' ∧
      (⟨none, none, some ⟨"g", 1⟩⟩ : Conflict) ∈ st'.index.conflicts ∧
      noticeOf ⟨[(1, "remote-content")]⟩ (fun _ => false)
        ⟨none, none, some ⟨"g", 1⟩⟩ = none ∧
      st'.log = (GitIndex.mk ⟨[]⟩ [⟨none, none, some ⟨"g", 1⟩⟩]).conflicts.filterMap
        (noticeOf ⟨[(1, "remote-content")]⟩ (fun _ => false))) := by
  refine ⟨by decide, resolver_delete_modify_amended _ _ _ _ _ ⟨"g", 1⟩ ?_ (by decide)
    rfl rfl ?_⟩
  · intro c hc
    rcases List.mem_cons.mp hc with h | h
    · subst h; exact Or.inl rfl
    · simp at h
  · intro c hc
    rcases List.mem_cons.mp hc with h | h
    · subst h; intro hb; simp at hb
    · simp at hc
      subst hc; intro hb; simp at hb

/-- C9: an I/O failure while writing a `.theirs` recovery artifact is not
propagated: the resolver still returns success, and the failed write is
recorded as a warning notice for that path. -/
theorem resolver_theirs_write_failure_warns
    (repo : Repo) (failW : FPath → Bool) (fs : FS) (idx : GitIndex)
    (c₁ : Conflict) (o t : SideEntry)
    (hok : ∀ c ∈ idx.conflicts, StepOK repo failW c)
    (hc₁ : c₁ ∈ idx.conflicts)
    (hour : c₁.our = some o) (ht : c₁.their = some t)
    (hfw : failW (o.path ++ ".theirs") = true) :
    ∃ st', resolve_conflicts_ours repo failW fs idx = .ok st' ∧
      Notice.warnWriteFailed o.path ∈ st'.log := by
  rcases fold_resolve_ok repo failW idx.conflicts ⟨fs, idx, []⟩ hok with
    ⟨st', hfold, _, hlog, _⟩
  refine ⟨st', hfold, ?_⟩
  have : st'.log = idx.conflicts.filterMap (noticeOf repo failW) := by simpa using hlog
  rw [this]
  exact List.mem_filterMap.mpr ⟨c₁, hc₁, by simp [noticeOf, hour, ht, hfw]⟩

/-- Witness for C9: with the write of `f.theirs` failing, the resolver still
returns `.ok` and logs the warning for path `f`. -/
theorem resolver_theirs_write_failure_warns_witness :
    ((fun p => p == "f.theirs") ("f" ++ ".theirs") = true) ∧
    (∃ st', resolve_conflicts_ours ⟨[(1, "a"), (2, "b")]⟩ (fun p => p == "f.theirs")
        ⟨[]⟩ (GitIndex.mk ⟨[]⟩ [⟨none, some ⟨"f", 1⟩, some ⟨"f", 2⟩⟩]) = .ok st' ∧
      Notice.warnWriteFailed "f" ∈ st'.log) := by
  have hok : ∀ c ∈ (GitIndex.mk ⟨[]⟩ [⟨none, some ⟨"f", 1⟩, some ⟨"f", 2⟩⟩]).conflicts,
      StepOK ⟨[(1, "a"), (2, "b")]⟩ (fun p => p == "f.theirs") c := by
    intro c hc
    rcases List.mem_cons.mp hc with h | h
    · subst h
      exact Or.inr ⟨⟨"f", 1⟩, "a", rfl, rfl, rfl, fun t' ht' => by
        simp at ht'
        subst ht'
        exact ⟨"b", rfl⟩⟩
    · simp at h
  exact ⟨rfl, resolver_theirs_write_failure_warns _ _ _ _
    ⟨none, some ⟨"f", 1⟩, some ⟨"f", 2⟩⟩ ⟨"f", 1⟩ ⟨"f", 2⟩ hok
    (List.mem_cons_self _ _) rfl rfl rfl⟩

/-! ### Repository state and the `pull`/`push` operations

The repository state visible to `pull`, `push` and
`sync_unrelated_histories`: configured remotes, refs, HEAD, the commit
store, the checked-out tree, the resolver's working-directory overlay, the
index, and branch upstreams.  External transport and merge primitives
(fetch results, merge analysis, the merged index and tree, the id of a
newly written commit) are supplied by a `PullEngine` oracle, matching the
spec's treatment of the VCS engine as a capability surface. -/

/-- HEAD: attached to a branch ref, detached at a commit, or unborn. -/
inductive Head where
  | symbolic (refname : String)
  | detached (oid : Oid)
  | unborn
deriving Repr, DecidableEq

structure CommitData where
  parents : List Oid
  tree : Oid
  message : String
deriving Repr, DecidableEq

structure RepoState where
  remotes : List String
  refs : List (String × Oid)
  head : Head
  commits : List (Oid × CommitData)
  workTree : Oid
  overlay : FS
  index : GitIndex
  upstreams : List (String × String)
deriving Repr, DecidableEq

def refLookup (refs : List (String × Oid)) (name : String) : Option Oid :=
  (refs.find? (fun e => e.1 == name)).map (·.2)

def refWrite (refs : List (String × Oid)) (name : String) (oid : Oid) :
    List (String × Oid) :=
  (name, oid) :: refs.filter (fun e => !(e.1 == name))

def findCommit (st : RepoState) (oid : Oid) : Option CommitData :=
  (st.commits.find? (fun e => e.1 == oid)).map (·.2)

/-- Model of `has_remote` (src/helpers.rs:8-10): `find_remote(name).is_ok()`. -/
def has_remote (st : RepoState) (name : String) : Bool :=
  st.remotes.contains name

/-- Model of `git_reference_shorthand`, for the refs this code manipulates: strip a
leading `refs/heads/` (computed on character data so it evaluates in the
kernel). -/
def shorthand (refname : String) : String :=
  if "refs/heads/".data.isPrefixOf refname.data then ⟨refname.data.drop 11⟩
  else refname

/-- The commit id HEAD currently resolves to (`repo.head()` + peel). -/
def headTarget (st : RepoState) : Option Oid :=
  match st.head with
  | .symbolic r => refLookup st.refs r
  | .detached oid => some oid
  | .unborn => none

/-- Model of `repo.head()?.shorthand().unwrap_or("HEAD")`, defined when HEAD is born. -/
def headShorthand (st : RepoState) : String :=
  match st.head with
  | .symbolic r => shorthand r
  | .detached _ => "HEAD"
  | .unborn => "HEAD"

/-- Single-quote character, used to build the merge message without literal
quote characters in the source text. -/
def sq : String := String.mk [Char.ofNat 39]

/-- The merge-commit message built at src/git_commands.rs:169-170: note the
hard-coded remote name `origin` and the use of HEAD's shorthand. -/
def mergeMsg (h : String) : String :=
  "Merge remote-tracking branch " ++ sq ++ "origin/" ++ h ++ sq ++ " into " ++ h

/-- Network side effects of an operation, with the refspec used. -/
inductive Effect where
  | fetched (refspec : String)
  | pushed (refspec : String)
deriving Repr, DecidableEq

/-- The outcome classes of `git_merge_analysis` that the `pull` dispatch
branches on (checked in source order: fast-forward, up-to-date, normal). -/
inductive MergeAnalysis where
  | fastForward
  | upToDate
  | normal
  | other
deriving Repr, DecidableEq

/-- Oracle for the external libgit2 primitives consumed by `pull`: the
commit fetch resolves to (`FETCH_HEAD`), the merge analysis, the merge-base,
the index produced by `merge_trees`, the tree id `write_tree_to` returns,
the id of the commit object `repo.commit` writes, and the I/O-failure
oracle threaded to the conflict resolver. -/
structure PullEngine where
  fetchedOid : Oid
  analysis : MergeAnalysis
  mergeBase : Option Oid
  mergedIndex : GitIndex
  mergedTree : Oid
  newCommitOid : Oid
  failW : FPath → Bool

/-- Model of `checkout_head(force)`: reset the working tree to HEAD's commit tree. -/
def checkout_head_force (st : RepoState) : Except String RepoState :=
  match headTarget st with
  | some oid =>
    match findCommit st oid with
    | some cd => .ok { st with workTree := cd.tree }
    | none => .error "checkout: commit not found"
  | none => .error "checkout: unborn HEAD"

/-- Model of `repo.commit(Some("HEAD"), ...)`: append the commit object and advance
the ref HEAD points at (or HEAD itself when detached). -/
def commitUpdateHead (st : RepoState) (oid : Oid) (cd : CommitData) : RepoState :=
  let st₁ : RepoState := { st with commits := (oid, cd) :: st.commits }
  match st.head with
  | .symbolic r => { st₁ with refs := refWrite st₁.refs r oid }
  | .detached _ => { st₁ with head := .detached oid }
  | .unborn => st₁

/-- Model of `push` (src/git_commands.rs:65-92): refuse a literal `HEAD` refspec,
no-op when the remote is not configured, otherwise push the branch refspec
over the network (no local state change). -/
def push (st : RepoState) (remote_name branch_name : String) (force : Bool) :
    Except String (RepoState × List Effect) :=
  if branch_name == "HEAD" then
    .error ("Cannot push " ++ sq ++ "HEAD" ++ sq ++ ". You must be on a named branch.")
  else if !(has_remote st remote_name) then .ok (st, [])
  else
    .ok (st, [.pushed ((if force then "+" else "") ++ "refs/heads/" ++ branch_name
      ++ ":refs/heads/" ++ branch_name)])

/-- Model of `pull` (src/git_commands.rs:96-186): no-op without the remote; fetch;
then dispatch on the merge analysis — fast-forward the local branch ref (or
detach HEAD if the branch ref is absent), do nothing when up to date, or
perform the three-way merge: merge-base + `merge_trees`, auto-resolve
conflicts if any, write the merged tree, create the two-parent merge commit
with the `origin/<HEAD-shorthand>` message, and force-checkout. -/
def pull (repo : Repo) (eng : PullEngine) (st : RepoState)
    (remote_name branch_name : String) : Except String (RepoState × List Effect) :=
  if !(has_remote st remote_name) then .ok (st, [])
  else
    match eng.analysis with
    | .fastForward =>
      match refLookup st.refs ("refs/heads/" ++ branch_name) with
      | some _ =>
        let st₁ : RepoState :=
          { st with refs := refWrite st.refs ("refs/heads/" ++ branch_name) eng.fetchedOid
                    head := .symbolic ("refs/heads/" ++ branch_name) }
        (checkout_head_force st₁).map (fun st₂ => (st₂, [.fetched branch_name]))
      | none => .ok ({ st with head := .detached eng.fetchedOid }, [.fetched branch_name])
    | .upToDate => .ok (st, [.fetched branch_name])
    | .normal =>
      match headTarget st with
      | none => .error "reference not found"
      | some ourOid =>
        match eng.mergeBase with
        | none => .error "no merge base found"
        | some baseOid =>
          match findCommit st baseOid, findCommit st ourOid, findCommit st eng.fetchedOid with
          | some _, some _, some _ =>
            (if eng.mergedIndex.has_conflicts then
              resolve_conflicts_ours repo eng.failW st.overlay eng.mergedIndex
             else .ok ⟨st.overlay, eng.mergedIndex, []⟩).bind (fun rst =>
              let msg := mergeMsg (headShorthand st)
              let st₁ : RepoState := { st with overlay := rst.fs }
              let st₂ := commitUpdateHead st₁ eng.newCommitOid
                ⟨[ourOid, eng.fetchedOid], eng.mergedTree, msg⟩
              (checkout_head_force st₂).map (fun st₃ => (st₃, [.fetched branch_name])))
          | _, _, _ => .error "commit not found"
    | .other => .ok (st, [.fetched branch_name])

theorem refLookup_refWrite_self (refs : List (String × Oid)) (name : String) (oid : Oid) :
    refLookup (refWrite refs name oid) name = some oid := by
  simp [refLookup, refWrite, List.find?_cons]

/-- Message of the commit `oid` in the state a pull returned, if any. -/
def pullResultMsg (x : Except String (RepoState × List Effect)) (oid : Oid) :
    Option String :=
  match x with
  | .ok res => (findCommit res.1 oid).map (·.message)
  | .error _ => none

/-- Counterexample to C2 as stated: pulling with remote name `upstream` and
branch `dev` over a normal-analysis merge produces a merge commit whose
message names `origin` and the HEAD branch `main`, not the invoked remote
and branch. -/
theorem pull_merge_message_cex :
    pullResultMsg
      (pull ⟨[]⟩ ⟨20, .normal, some 1, ⟨⟨[]⟩, []⟩, 103, 40, fun _ => false⟩
        ⟨["upstream"], [("refs/heads/main", 10)], .symbolic "refs/heads/main",
         [(1, ⟨[], 100, "base"⟩), (10, ⟨[1], 101, "local"⟩), (20, ⟨[1], 102, "remote"⟩)],
         101, ⟨[]⟩, ⟨⟨[]⟩, []⟩, []⟩
        "upstream" "dev") 40 = some (mergeMsg "main") ∧
    mergeMsg "main" ≠
      "Merge remote-tracking branch " ++ sq ++ "upstream/dev" ++ sq ++ " into dev" := by
  exact ⟨by decide, by decide⟩

/-- C2 (amended): every normal-analysis pull that merges — whether the
merge-trees index is conflict-free or its conflicts are auto-resolved by the
Conflict Auto-Resolver — creates a commit with exactly two parents: the
prior local tip first, the fetched remote tip second.  Its message is
`Merge remote-tracking branch 'origin/<H>' into <H>` where `H` is the HEAD
branch's shorthand, independent of the remote name and branch the operation
was invoked with. -/
theorem pull_merge_commit_two_parents
    (repo : Repo) (eng : PullEngine) (st : RepoState)
    (remote_name branch_name r : String) (ourOid baseOid : Oid)
    (hrem : has_remote st remote_name = true)
    (han : eng.analysis = .normal)
    (hhead : st.head = .symbolic r)
    (href : refLookup st.refs r = some ourOid)
    (hbase : eng.mergeBase = some baseOid)
    (hcb : (findCommit st baseOid).isSome)
    (hco : (findCommit st ourOid).isSome)
    (hcf : (findCommit st eng.fetchedOid).isSome)
    (hok : ∀ c ∈ eng.mergedIndex.conflicts, StepOK repo eng.failW c) :
    ∃ st', pull repo eng st remote_name branch_name = .ok (st', [.fetched branch_name]) ∧
      findCommit st' eng.newCommitOid =
        some ⟨[ourOid, eng.fetchedOid], eng.mergedTree, mergeMsg (shorthand r)⟩ := by
  obtain ⟨cdb, hcdb⟩ := Option.isSome_iff_exists.mp hcb
  obtain ⟨cdo, hcdo⟩ := Option.isSome_iff_exists.mp hco
  obtain ⟨cdf, hcdf⟩ := Option.isSome_iff_exists.mp hcf
  have hT : headTarget st = some ourOid := by simp [headTarget, hhead, href]
  have hsh : headShorthand st = shorthand r := by simp [headShorthand, hhead]
  -- both branches of the conflict check produce a resolved state: directly
  -- when the merged index is clean, through the auto-resolver otherwise
  have hres : ∃ rst, (if eng.mergedIndex.has_conflicts then
      resolve_conflicts_ours repo eng.failW st.overlay eng.mergedIndex
    else .ok ⟨st.overlay, eng.mergedIndex, []⟩) = .ok rst := by
    rcases hconf : eng.mergedIndex.has_conflicts with _ | _
    · exact ⟨⟨st.overlay, eng.mergedIndex, []⟩, by simp [hconf]⟩
    · obtain ⟨rst, hfold, _, _, _⟩ := fold_resolve_ok repo eng.failW
        eng.mergedIndex.conflicts ⟨st.overlay, eng.mergedIndex, []⟩ hok
      refine ⟨rst, ?_⟩
      simp only [hconf, if_true]
      simpa [resolve_conflicts_ours] using hfold
  obtain ⟨rst, hres⟩ := hres
  refine ⟨{ st with
      overlay := rst.fs,
      commits := (eng.newCommitOid,
        ⟨[ourOid, eng.fetchedOid], eng.mergedTree, mergeMsg (shorthand r)⟩) :: st.commits,
      refs := refWrite st.refs r eng.newCommitOid,
      workTree := eng.mergedTree }, ?_, ?_⟩
  · unfold pull
    rw [hrem]
    simp only [Bool.not_true, Bool.false_eq_true, if_false, han, hT, hbase,
      hcdb, hcdo, hcdf]
    rw [hres]
    simp only [Except.bind, hsh, commitUpdateHead, hhead, checkout_head_force,
      headTarget, refLookup_refWrite_self, findCommit, List.find?_cons,
      beq_self_eq_true, Except.map]
    rfl
  · simp [findCommit, List.find?_cons]

/-- Witness for amended C2: a normal merge of local tip 10 and fetched tip
20 whose merged index has a conflict on path `f` (auto-resolved by the
resolver) still yields commit 40 with parents `[10, 20]` and the
`origin/main` message. -/
theorem pull_merge_commit_two_parents_witness :
    has_remote ⟨["origin"], [("refs/heads/main", 10)], .symbolic "refs/heads/main",
        [(1, ⟨[], 100, "base"⟩), (10, ⟨[1], 101, "local"⟩), (20, ⟨[1], 102, "remote"⟩)],
        101, ⟨[]⟩, ⟨⟨[]⟩, []⟩, []⟩ "origin" = true ∧
    (∀ c ∈ (GitIndex.mk ⟨[]⟩ [⟨none, some ⟨"f", 5⟩, some ⟨"f", 6⟩⟩]).conflicts,
      StepOK ⟨[(5, "ourF"), (6, "theirF")]⟩ (fun _ => false) c) ∧
    (∃ st', pull ⟨[(5, "ourF"), (6, "theirF")]⟩
        ⟨20, .normal, some 1, ⟨⟨[]⟩, [⟨none, some ⟨"f", 5⟩, some ⟨"f", 6⟩⟩]⟩,
         103, 40, fun _ => false⟩
        ⟨["origin"], [("refs/heads/main", 10)], .symbolic "refs/heads/main",
         [(1, ⟨[], 100, "base"⟩), (10, ⟨[1], 101, "local"⟩), (20, ⟨[1], 102, "remote"⟩)],
         101, ⟨[]⟩, ⟨⟨[]⟩, []⟩, []⟩ "origin" "main" = .ok (st', [.fetched "main"]) ∧
      findCommit st' 40 = some ⟨[10, 20], 103, mergeMsg (shorthand "refs/heads/main")⟩) := by
  have hok : ∀ c ∈ (GitIndex.mk ⟨[]⟩ [⟨none, some ⟨"f", 5⟩, some ⟨"f", 6⟩⟩]).conflicts,
      StepOK ⟨[(5, "ourF"), (6, "theirF")]⟩ (fun _ => false) c := by
    intro c hc
    rcases List.mem_cons.mp hc with h | h
    · subst h
      exact Or.inr ⟨⟨"f", 5⟩, "ourF", rfl, rfl, rfl, fun t ht => by
        simp at ht
        subst ht
        exact ⟨"theirF", rfl⟩⟩
    · simp at h
  refine ⟨by decide, hok, pull_merge_commit_two_parents ⟨[(5, "ourF"), (6, "theirF")]⟩
    ⟨20, .normal, some 1, ⟨⟨[]⟩, [⟨none, some ⟨"f", 5⟩, some ⟨"f", 6⟩⟩]⟩,
     103, 40, fun _ => false⟩
    ⟨["origin"], [("refs/heads/main", 10)], .symbolic "refs/heads/main",
     [(1, ⟨[], 100, "base"⟩), (10, ⟨[1], 101, "local"⟩), (20, ⟨[1], 102, "remote"⟩)],
     101, ⟨[]⟩, ⟨⟨[]⟩, []⟩, []⟩ "origin" "main" "refs/heads/main" 10 1
    (by decide) rfl rfl (by decide) rfl (by decide) (by decide) (by decide) hok⟩

/-- C7: a fast-forward pull moves the local branch ref (when it exists) to
the fetched commit, re-attaches HEAD to it and force-checkouts that
commit's tree; when the local branch ref does not exist, it just detaches
HEAD onto the fetched commit. -/
theorem pull_fast_forward_spec
    (repo : Repo) (eng : PullEngine) (st : RepoState) (remote_name branch_name : String)
    (hrem : has_remote st remote_name = true)
    (han : eng.analysis = .fastForward)
    (hc : (findCommit st eng.fetchedOid).isSome) :
    ∃ st', pull repo eng st remote_name branch_name = .ok (st', [.fetched branch_name]) ∧
      (∀ old, refLookup st.refs ("refs/heads/" ++ branch_name) = some old →
        refLookup st'.refs ("refs/heads/" ++ branch_name) = some eng.fetchedOid ∧
        st'.head = .symbolic ("refs/heads/" ++ branch_name) ∧
        (∀ cd, findCommit st eng.fetchedOid = some cd → st'.workTree = cd.tree)) ∧
      (refLookup st.refs ("refs/heads/" ++ branch_name) = none →
        st' = { st with head := .detached eng.fetchedOid }) := by
  rcases hfr : refLookup st.refs ("refs/heads/" ++ branch_name) with _ | old
  · refine ⟨{ st with head := .detached eng.fetchedOid }, ?_, ?_, fun _ => rfl⟩
    · unfold pull
      rw [hrem]
      simp only [Bool.not_true, Bool.false_eq_true, if_false, han, hfr]
    · intro old h
      exact absurd h (by simp)
  · obtain ⟨cd, hcd⟩ := Option.isSome_iff_exists.mp hc
    refine ⟨{ st with
        refs := refWrite st.refs ("refs/heads/" ++ branch_name) eng.fetchedOid,
        head := .symbolic ("refs/heads/" ++ branch_name),
        workTree := cd.tree }, ?_, ?_, ?_⟩
    · unfold pull
      rw [hrem]
      simp only [Bool.not_true, Bool.false_eq_true, if_false, han, hfr]
      simp only [checkout_head_force, headTarget, refLookup_refWrite_self]
      have hsame : findCommit { st with
          refs := refWrite st.refs ("refs/heads/" ++ branch_name) eng.fetchedOid,
          head := Head.symbolic ("refs/heads/" ++ branch_name) } eng.fetchedOid =
          findCommit st eng.fetchedOid := rfl
      rw [hsame, hcd]
      rfl
    · intro old' _
      refine ⟨refLookup_refWrite_self _ _ _, rfl, ?_⟩
      intro cd' hcd'
      rw [hcd] at hcd'
      rw [Option.some_inj.mp hcd']
    · intro h
      exact absurd h (by simp)

/-- Witness for C7: both branches exercised through the ref-exists case
(branch `main` moves to commit 20 and the work tree becomes tree 102). -/
theorem pull_fast_forward_spec_witness :
    has_remote ⟨["origin"], [("refs/heads/main", 10)], .symbolic "refs/heads/main",
        [(10, ⟨[], 101, "local"⟩), (20, ⟨[10], 102, "remote"⟩)],
        101, ⟨[]⟩, ⟨⟨[]⟩, []⟩, []⟩ "origin" = true ∧
    (∃ st', pull ⟨[]⟩ ⟨20, .fastForward, none, ⟨⟨[]⟩, []⟩, 0, 0, fun _ => false⟩
        ⟨["origin"], [("refs/heads/main", 10)], .symbolic "refs/heads/main",
         [(10, ⟨[], 101, "local"⟩), (20, ⟨[10], 102, "remote"⟩)],
         101, ⟨[]⟩, ⟨⟨[]⟩, []⟩, []⟩ "origin" "main" = .ok (st', [.fetched "main"]) ∧
      (∀ old, refLookup [("refs/heads/main", 10)] ("refs/heads/" ++ "main") = some old →
        refLookup st'.refs ("refs/heads/" ++ "main") = some 20 ∧
        st'.head = .symbolic ("refs/heads/" ++ "main") ∧
        (∀ cd, findCommit ⟨["origin"], [("refs/heads/main", 10)],
            .symbolic "refs/heads/main",
            [(10, ⟨[], 101, "local"⟩), (20, ⟨[10], 102, "remote"⟩)],
            101, ⟨[]⟩, ⟨⟨[]⟩, []⟩, []⟩ 20 = some cd → st'.workTree = cd.tree)) ∧
      (refLookup [("refs/heads/main", 10)] ("refs/heads/" ++ "main") = none →
        st' = { remotes := ["origin"], refs := [("refs/heads/main", 10)],
                head := .detached 20,
                commits := [(10, ⟨[], 101, "local"⟩), (20, ⟨[10], 102, "remote"⟩)],
                workTree := 101, overlay := ⟨[]⟩, index := ⟨⟨[]⟩, []⟩,
                upstreams := [] })) := by
  exact ⟨by decide, pull_fast_forward_spec ⟨[]⟩
    ⟨20, .fastForward, none, ⟨⟨[]⟩, []⟩, 0, 0, fun _ => false⟩
    ⟨["origin"], [("refs/heads/main", 10)], .symbolic "refs/heads/main",
     [(10, ⟨[], 101, "local"⟩), (20, ⟨[10], 102, "remote"⟩)],
     101, ⟨[]⟩, ⟨⟨[]⟩, []⟩, []⟩ "origin" "main" (by decide) rfl (by decide)⟩

/-- Counterexample to C10 as stated: with no remote configured, `push`
invoked for branch name `HEAD` does not return success — it fails the
named-branch precondition check, which runs before the remote check. -/
theorem push_no_remote_head_cex :
    push ⟨[], [], .unborn, [], 0, ⟨[]⟩, ⟨⟨[]⟩, []⟩, []⟩ "origin" "HEAD" false =
      .error ("Cannot push " ++ sq ++ "HEAD" ++ sq ++ ". You must be on a named branch.") := by
  rfl

/-- C10 (amended): when the named remote is not configured, `pull` returns
success immediately with no network effect and no state change, and so does
`push` provided the branch name is not the literal `HEAD` (whose
precondition check precedes the remote check). -/
theorem no_remote_noop
    (repo : Repo) (eng : PullEngine) (st : RepoState)
    (remote_name branch_name : String) (force : Bool)
    (hrem : has_remote st remote_name = false)
    (hb : (branch_name == "HEAD") = false) :
    pull repo eng st remote_name branch_name = .ok (st, []) ∧
    push st remote_name branch_name force = .ok (st, []) := by
  constructor
  · unfold pull
    rw [hrem]
    rfl
  · unfold push
    rw [hb, hrem]
    rfl

/-- Witness for amended C10: a repository with no remotes: `pull` and `push`
(branch `main`) both succeed unchanged with no effects. -/
theorem no_remote_noop_witness :
    has_remote ⟨[], [], .unborn, [], 0, ⟨[]⟩, ⟨⟨[]⟩, []⟩, []⟩ "origin" = false ∧
    (pull ⟨[]⟩ ⟨0, .normal, none, ⟨⟨[]⟩, []⟩, 0, 0, fun _ => false⟩
        ⟨[], [], .unborn, [], 0, ⟨[]⟩, ⟨⟨[]⟩, []⟩, []⟩ "origin" "main" =
      .ok (⟨[], [], .unborn, [], 0, ⟨[]⟩, ⟨⟨[]⟩, []⟩, []⟩, []) ∧
     push ⟨[], [], .unborn, [], 0, ⟨[]⟩, ⟨⟨[]⟩, []⟩, []⟩ "origin" "main" false =
      .ok (⟨[], [], .unborn, [], 0, ⟨[]⟩, ⟨⟨[]⟩, []⟩, []⟩, [])) := by
  exact ⟨by decide, no_remote_noop ⟨[]⟩ ⟨0, .normal, none, ⟨⟨[]⟩, []⟩, 0, 0, fun _ => false⟩
    ⟨[], [], .unborn, [], 0, ⟨[]⟩, ⟨⟨[]⟩, []⟩, []⟩ "origin" "main" false
    (by decide) (by decide)⟩

/-! ### `sync_unrelated_histories` (src/helpers.rs:128-194)

The rebase machinery (`repo.rebase`, `op?`, `rebase.commit`, `rebase.abort`,
`rebase.finish`) is modelled as a loop over oracle-supplied steps: each step
reports whether applying the patch left the index conflicted, and the id and
tree of the commit `rebase.commit` would write.  `abort` restores HEAD, the
index and the working tree to their pre-rebase state (libgit2 semantics);
branch refs are only moved by `finish`. -/

structure RebStep where
  conflicted : Bool
  newOid : Oid
  newTree : Oid
deriving Repr, DecidableEq

structure SyncEngine where
  remoteRefOid : Option Oid
  steps : List RebStep

/-- The replay loop of `sync_unrelated_histories` (helpers.rs:161-173):
abort and fail on the first conflicted step, otherwise commit each step and
finally `finish` by moving the original branch ref to the last replayed
commit. -/
def rebaseLoop (st0 : RepoState) (origHead : Head) :
    List RebStep → RepoState → Oid → RepoState × Option String
  | [], st, cur =>
    match origHead with
    | .symbolic r => ({ st with refs := refWrite st.refs r cur, head := .symbolic r }, none)
    | _ => (st, none)
  | s :: rest, st, cur =>
    if s.conflicted then
      ({ st with head := origHead, index := st0.index, workTree := st0.workTree },
       some "Conflict! Rebase aborted. Resolve manually.")
    else
      rebaseLoop st0 origHead rest
        { st with commits := (s.newOid, ⟨[cur], s.newTree, ""⟩) :: st.commits,
                  head := .detached s.newOid } s.newOid

/-- Model of `sync_unrelated_histories`: fetch all remote branches (the oracle's
`remoteRefOid` is the resulting `refs/remotes/<remote>/<branch>` target);
if the remote branch exists, either replay local commits onto it (aborting
on conflict) when local history exists and differs, or create the local
branch at the remote tip when unborn; then set the upstream. -/
def sync_unrelated_histories (eng : SyncEngine) (st : RepoState)
    (remote_name : String) : RepoState × Option String :=
  if !(st.remotes.contains remote_name) then (st, some "remote not found")
  else
    let local_branch_name :=
      match st.head with
      | .symbolic r => shorthand r
      | .detached _ => "HEAD"
      | .unborn => "main"
    match eng.remoteRefOid with
    | some rOid =>
      match findCommit st rOid with
      | none => (st, some "commit not found")
      | some rcd =>
        match headTarget st with
        | some localOid =>
          let res := if localOid != rOid then rebaseLoop st st.head eng.steps st rOid
                     else (st, none)
          match res.2 with
          | some e => (res.1, some e)
          | none =>
            match refLookup res.1.refs ("refs/heads/" ++ local_branch_name) with
            | some _ =>
              ({ res.1 with upstreams :=
                  (local_branch_name, remote_name ++ "/" ++ local_branch_name)
                    :: res.1.upstreams }, none)
            | none => (res.1, some "branch not found")
        | none =>
          let st₁ : RepoState :=
            { st with refs := refWrite st.refs ("refs/heads/" ++ local_branch_name) rOid,
                      head := .symbolic ("refs/heads/" ++ local_branch_name),
                      workTree := rcd.tree }
          ({ st₁ with upstreams :=
              (local_branch_name, remote_name ++ "/" ++ local_branch_name)
                :: st₁.upstreams }, none)
    | none => (st, none)

/-- The replay loop with a conflicted step somewhere fails with the conflict
error, never touches branch refs, and restores HEAD. -/
theorem rebaseLoop_conflict (st0 : RepoState) (origHead : Head) :
    ∀ (steps : List RebStep) (st : RepoState) (cur : Oid),
    steps.any (·.conflicted) = true →
    (rebaseLoop st0 origHead steps st cur).2 =
      some "Conflict! Rebase aborted. Resolve manually." ∧
    (rebaseLoop st0 origHead steps st cur).1.refs = st.refs ∧
    (rebaseLoop st0 origHead steps st cur).1.head = origHead := by
  intro steps
  induction steps with
  | nil =>
    intro st cur h
    simp at h
  | cons s rest ih =>
    intro st cur h
    rcases hc : s.conflicted with _ | _
    · rw [List.any_cons, hc, Bool.false_or] at h
      have := ih { st with commits := (s.newOid, ⟨[cur], s.newTree, ""⟩) :: st.commits,
                           head := .detached s.newOid } s.newOid h
      simpa [rebaseLoop, hc] using this
    · simp [rebaseLoop, hc]

/-- C3: if any replayed rebase step leaves a conflicted index, the History
Reconciler aborts, returns the conflict error, and the local branch tip (in
fact the whole ref store) is unchanged. -/
theorem sync_conflict_rollback
    (eng : SyncEngine) (st : RepoState) (remote_name r : String)
    (localOid rOid : Oid)
    (hrem : st.remotes.contains remote_name = true)
    (hro : eng.remoteRefOid = some rOid)
    (hrc : (findCommit st rOid).isSome)
    (hhead : st.head = .symbolic r)
    (href : refLookup st.refs r = some localOid)
    (hne : localOid ≠ rOid)
    (hconf : eng.steps.any (·.conflicted) = true) :
    (sync_unrelated_histories eng st remote_name).2 =
      some "Conflict! Rebase aborted. Resolve manually." ∧
    (sync_unrelated_histories eng st remote_name).1.refs = st.refs ∧
    refLookup (sync_unrelated_histories eng st remote_name).1.refs r =
      refLookup st.refs r := by
  obtain ⟨rcd, hrcd⟩ := Option.isSome_iff_exists.mp hrc
  have hT : headTarget st = some localOid := by simp [headTarget, hhead, href]
  have hbne : (localOid != rOid) = true := by simpa [bne_iff_ne] using hne
  have hloop := rebaseLoop_conflict st st.head eng.steps st rOid hconf
  have hres : sync_unrelated_histories eng st remote_name =
      ((rebaseLoop st st.head eng.steps st rOid).1,
        some "Conflict! Rebase aborted. Resolve manually.") := by
    unfold sync_unrelated_histories
    rw [hrem]
    simp only [Bool.not_true, Bool.false_eq_true, if_false, hro, hrcd, hT, hbne,
      if_true, hloop.1]
  rw [hres]
  exact ⟨rfl, hloop.2.1, by rw [hloop.2.1]⟩

/-- Witness for C3: replaying two commits where the second conflicts — the
operation fails with the conflict error and `refs/heads/main` still points
at the original tip 10. -/
theorem sync_conflict_rollback_witness :
    (([⟨false, 31, 131⟩, ⟨true, 32, 132⟩] : List RebStep).any (·.conflicted) = true) ∧
    ((sync_unrelated_histories ⟨some 20, [⟨false, 31, 131⟩, ⟨true, 32, 132⟩]⟩
        ⟨["origin"], [("refs/heads/main", 10)], .symbolic "refs/heads/main",
         [(10, ⟨[], 101, "local"⟩), (20, ⟨[], 102, "remote"⟩)],
         101, ⟨[]⟩, ⟨⟨[]⟩, []⟩, []⟩ "origin").2 =
      some "Conflict! Rebase aborted. Resolve manually." ∧
     (sync_unrelated_histories ⟨some 20, [⟨false, 31, 131⟩, ⟨true, 32, 132⟩]⟩
        ⟨["origin"], [("refs/heads/main", 10)], .symbolic "refs/heads/main",
         [(10, ⟨[], 101, "local"⟩), (20, ⟨[], 102, "remote"⟩)],
         101, ⟨[]⟩, ⟨⟨[]⟩, []⟩, []⟩ "origin").1.refs = [("refs/heads/main", 10)] ∧
     refLookup (sync_unrelated_histories ⟨some 20, [⟨false, 31, 131⟩, ⟨true, 32, 132⟩]⟩
        ⟨["origin"], [("refs/heads/main", 10)], .symbolic "refs/heads/main",
         [(10, ⟨[], 101, "local"⟩), (20, ⟨[], 102, "remote"⟩)],
         101, ⟨[]⟩, ⟨⟨[]⟩, []⟩, []⟩ "origin").1.refs "refs/heads/main" =
       refLookup [("refs/heads/main", 10)] "refs/heads/main") := by
  exact ⟨by decide, sync_conflict_rollback ⟨some 20, [⟨false, 31, 131⟩, ⟨true, 32, 132⟩]⟩
    ⟨["origin"], [("refs/heads/main", 10)], .symbolic "refs/heads/main",
     [(10, ⟨[], 101, "local"⟩), (20, ⟨[], 102, "remote"⟩)],
     101, ⟨[]⟩, ⟨⟨[]⟩, []⟩, []⟩ "origin" "refs/heads/main" 10 20
    (by decide) rfl (by decide) rfl (by decide) (by decide) (by decide)⟩

/-! ### Credential negotiation (`create_callbacks`, src/helpers.rs:82-126)

The closure installed by `create_callbacks` captures a `Cell` counter; each
invocation reads the counter as `count` and stores `count + 1`.  The model
is that closure as a pure function of the counter value, the callback
arguments, and an environment oracle (which default key files exist on disk,
whether the stored credential helper yields a credential). -/

structure CredTypes where
  sshKey : Bool
  userPassPlaintext : Bool
deriving Repr, DecidableEq

inductive Cred where
  | sshAgent (user : String)
  | sshKeyFile (user : String) (keyName : String)
  | fromHelper (url : String) (user : Option String)
deriving Repr, DecidableEq

structure CredEnv where
  keyOnDisk : String → Bool
  helperOk : Bool

/-- The fixed, ordered list of default on-disk key names tried on retry. -/
def default_key_names : List String := ["id_ed25519", "id_rsa", "id_ecdsa"]

/-- One invocation of the credentials callback: returns the stored counter
(`count + 1`) and the outcome.  More than 2 prior attempts fail permanently;
attempt 0 with key auth uses the agent; later key-auth attempts scan the
default on-disk keys; password/token auth delegates to the credential
helper; otherwise no method is available. -/
def credentials_callback (env : CredEnv) (url : String)
    (username_from_url : Option String) (allowed : CredTypes) (count : Nat) :
    Nat × Except String Cred :=
  let next := count + 1
  if count > 2 then
    (next, .error "Authentication failed: tried agent and default SSH keys.")
  else
    let user := username_from_url.getD "git"
    match (if allowed.sshKey then
            (if count == 0 then some (Except.ok (Cred.sshAgent user))
             else (default_key_names.find? env.keyOnDisk).map
               (fun k => Except.ok (Cred.sshKeyFile user k)))
           else none) with
    | some r => (next, r)
    | none =>
      if allowed.userPassPlaintext then
        (next, if env.helperOk then .ok (.fromHelper url username_from_url)
               else .error "credential helper failed")
      else (next, .error "No valid authentication methods found")

/-- C4: every callback invocation whose attempt counter exceeds 2 (i.e.
every invocation after the third, since the counter starts at 0 and is
incremented once per invocation) returns the permanent authentication
error without consulting any authentication method — the result does not
depend on the environment, URL, username, or advertised credential types. -/
theorem credentials_callback_bounded
    (env : CredEnv) (url : String) (username_from_url : Option String)
    (allowed : CredTypes) (count : Nat) (h : 2 < count) :
    credentials_callback env url username_from_url allowed count =
      (count + 1, .error "Authentication failed: tried agent and default SSH keys.") := by
  unfold credentials_callback
  rw [if_pos h]

/-- Witness for C4: the 4th invocation (counter 3, after attempts 0, 1, 2)
fails permanently, in an environment with no agent keys on disk. -/
theorem credentials_callback_bounded_witness :
    2 < 3 ∧
    credentials_callback ⟨fun _ => false, false⟩ "ssh://host/repo" none
      ⟨true, false⟩ 3 =
      (4, .error "Authentication failed: tried agent and default SSH keys.") := by
  exact ⟨by decide, credentials_callback_bounded ⟨fun _ => false, false⟩
    "ssh://host/repo" none ⟨true, false⟩ 3 (by decide)⟩

/-! ### `.theirs` discovery and cleanup (src/git_commands.rs:190-211, 278-299)

The working directory is a tree of named entries.  `find_theirs_files` is
the recursive walk: it skips any directory whose name is `.git` (the
`dir.ends_with(".git")` component check) and collects the full path of every
file whose path string ends in `.theirs`.  The cleanup pass of `resolve`
deletes each collected path.  Full paths are accumulated as
`<dir>/<name>` strings, exactly the strings the source compares. -/

inductive Entry where
  | file (name : String) (content : String)
  | dir (name : String) (entries : List Entry)

/-- The body of `find_theirs_files` iterating over `read_dir`: recurse into
subdirectories (each recursive call re-checks the `.git` name), collect
`.theirs`-suffixed file paths. -/
def findL (pre : String) : List Entry → List String
  | [] => []
  | .file n _ :: es =>
    (if ends_with (pre ++ n) ".theirs" then [pre ++ n] else []) ++ findL pre es
  | .dir n es' :: es =>
    (if n == ".git" then [] else findL (pre ++ n ++ "/") es') ++ findL pre es

/-- Model of `find_theirs_files` applied to the working directory: a non-directory is
skipped (`is_dir` false), a directory named `.git` yields nothing. -/
def find_theirs_files (root : Entry) : List String :=
  match root with
  | .file _ _ => []
  | .dir n es => if n == ".git" then [] else findL (n ++ "/") es

/-- Deletion of every file whose full path occurs in `ts` (the cleanup loop
calling `remove_file` on each found path). -/
def removeL (pre : String) (ts : List String) : List Entry → List Entry
  | [] => []
  | .file n c :: es =>
    (if ts.contains (pre ++ n) then [] else [.file n c]) ++ removeL pre ts es
  | .dir n es' :: es => .dir n (removeL (pre ++ n ++ "/") ts es') :: removeL pre ts es

/-- The cleanup pass of `resolve` with `cleanup = true`: scan for `.theirs`
files, then delete each of them. -/
def resolve_cleanup (root : Entry) : Entry :=
  match root with
  | .file n c => .file n c
  | .dir n es => .dir n (removeL (n ++ "/") (find_theirs_files root) es)

/-- All files of the working directory, as full path / content pairs. -/
def allFilesL (pre : String) : List Entry → List (String × String)
  | [] => []
  | .file n c :: es => (pre ++ n, c) :: allFilesL pre es
  | .dir n es' :: es => allFilesL (pre ++ n ++ "/") es' ++ allFilesL pre es

def allFiles (root : Entry) : List (String × String) :=
  match root with
  | .file n c => [(n, c)]
  | .dir n es => allFilesL (n ++ "/") es

/-- Spec-side collector: all files together with the flag "lies inside a
`.git` (VCS metadata) directory", following the spec's wording of the
cleanup contract. -/
def allFilesG (pre : String) (g : Bool) : List Entry → List (String × String × Bool)
  | [] => []
  | .file n c :: es => (pre ++ n, c, g) :: allFilesG pre g es
  | .dir n es' :: es =>
    allFilesG (pre ++ n ++ "/") (g || n == ".git") es' ++ allFilesG pre g es

def allFilesWithGitFlag (root : Entry) : List (String × String × Bool) :=
  match root with
  | .file n c => [(n, c, false)]
  | .dir n es => allFilesG (n ++ "/") (n == ".git") es

theorem allFilesG_map_fst : ∀ (pre : String) (g : Bool) (es : List Entry),
    (allFilesG pre g es).map (fun x => x.1) = (allFilesL pre es).map (fun x => x.1)
  | _, _, [] => by simp [allFilesG, allFilesL]
  | pre, g, .file n c :: es => by
    simp only [allFilesG, allFilesL, List.map_cons, allFilesG_map_fst pre g es]
  | pre, g, .dir n es' :: es => by
    simp only [allFilesG, allFilesL, List.map_append,
      allFilesG_map_fst (pre ++ n ++ "/") (g || n == ".git") es',
      allFilesG_map_fst pre g es]

theorem mem_allFilesG_true : ∀ (pre : String) (es : List Entry)
    (x : String × String × Bool), x ∈ allFilesG pre true es → x.2.2 = true
  | _, [], x, hx => by simp [allFilesG] at hx
  | pre, .file n c :: es, x, hx => by
    simp only [allFilesG, List.mem_cons] at hx
    rcases hx with h | h
    · subst h; rfl
    · exact mem_allFilesG_true pre es x h
  | pre, .dir n es' :: es, x, hx => by
    simp only [allFilesG, Bool.true_or, List.mem_append] at hx
    rcases hx with h | h
    · exact mem_allFilesG_true (pre ++ n ++ "/") es' x h
    · exact mem_allFilesG_true pre es x h

/-- The walk collects exactly the paths of `.theirs`-suffixed files that do
not lie inside a `.git` directory, in traversal order. -/
theorem findL_eq_filterMap : ∀ (pre : String) (es : List Entry),
    findL pre es = (allFilesG pre false es).filterMap
      (fun x => if ends_with x.1 ".theirs" && !x.2.2 then some x.1 else none)
  | _, [] => by simp [findL, allFilesG]
  | pre, .file n c :: es => by
    simp only [findL, allFilesG, List.filterMap_cons]
    rcases hs : ends_with (pre ++ n) ".theirs" with _ | _
    · simp only [hs, Bool.false_and, Bool.false_eq_true, if_false, List.nil_append]
      exact findL_eq_filterMap pre es
    · simp only [hs, Bool.not_false, Bool.and_true, if_true, List.singleton_append]
      rw [findL_eq_filterMap pre es]
  | pre, .dir n es' :: es => by
    simp only [findL, allFilesG, List.filterMap_append]
    rcases hg : (n == ".git") with _ | _
    · simp only [hg, Bool.false_eq_true, if_false, Bool.or_false]
      rw [findL_eq_filterMap (pre ++ n ++ "/") es', findL_eq_filterMap pre es]
    · simp only [hg, if_true, Bool.or_true]
      rw [findL_eq_filterMap pre es]
      have hnil : (allFilesG (pre ++ n ++ "/") true es').filterMap
          (fun x => if ends_with x.1 ".theirs" && !x.2.2 then some x.1 else none) = [] := by
        apply List.filterMap_eq_nil_iff.mpr
        intro x hx
        simp [mem_allFilesG_true _ _ x hx]
      rw [hnil]

/-- Deleting the paths in `ts` keeps exactly the files whose `.theirs`/`.git`
classification disagrees with `ts`, provided `ts` matches that
classification on every file of the tree. -/
theorem allFilesL_removeL : ∀ (pre : String) (g : Bool) (ts : List String)
    (es : List Entry),
    (∀ x ∈ allFilesG pre g es, ts.contains x.1 = (ends_with x.1 ".theirs" && !x.2.2)) →
    allFilesL pre (removeL pre ts es) =
      (allFilesG pre g es).filterMap
        (fun x => if ends_with x.1 ".theirs" && !x.2.2 then none else some (x.1, x.2.1))
  | _, _, _, [], _ => by simp [removeL, allFilesL, allFilesG]
  | pre, g, ts, .file n c :: es, h => by
    have hh := h (pre ++ n, c, g) (by simp [allFilesG])
    have htail := allFilesL_removeL pre g ts es
      (fun x hx => h x (by simp only [allFilesG, List.mem_cons]; exact Or.inr hx))
    simp only [removeL, allFilesG, List.filterMap_cons]
    rcases hc : ts.contains (pre ++ n) with _ | _
    · rw [hc] at hh
      simp only [← hh, Bool.false_eq_true, if_false, List.singleton_append, allFilesL]
      rw [htail]
    · rw [hc] at hh
      simp only [← hh, if_true, List.nil_append]
      exact htail
  | pre, g, ts, .dir n es' :: es, h => by
    have hinner := allFilesL_removeL (pre ++ n ++ "/") (g || n == ".git") ts es'
      (fun x hx => h x (by
        simp only [allFilesG, List.mem_append]
        exact Or.inl hx))
    have htail := allFilesL_removeL pre g ts es
      (fun x hx => h x (by
        simp only [allFilesG, List.mem_append]
        exact Or.inr hx))
    simp only [removeL, allFilesL, allFilesG, List.filterMap_append]
    rw [hinner, htail]

/-- C8: the cleanup pass (`resolve` with `cleanup = true`) deletes exactly
the files whose path ends in `.theirs` and that lie outside the `.git`
metadata directory, leaving every other file (path and content) untouched:
the files after cleanup are the files before it, filtered by that
classification.  The working directory is assumed not to be named `.git`
itself and to have no duplicate full paths (as on a real filesystem). -/
theorem resolve_cleanup_removes_exactly_theirs
    (n : String) (es : List Entry)
    (hroot : (n == ".git") = false)
    (hnodup : ((allFiles (.dir n es)).map Prod.fst).Nodup) :
    allFiles (resolve_cleanup (.dir n es)) =
      (allFilesWithGitFlag (.dir n es)).filterMap
        (fun x => if ends_with x.1 ".theirs" && !x.2.2 then none
                  else some (x.1, x.2.1)) := by
  have hts : find_theirs_files (.dir n es) = findL (n ++ "/") es := by
    simp [find_theirs_files, hroot]
  have hGnodup : ((allFilesG (n ++ "/") false es).map (fun x => x.1)).Nodup := by
    rw [allFilesG_map_fst]
    simpa [allFiles] using hnodup
  have hmemts : ∀ x ∈ allFilesG (n ++ "/") false es,
      (find_theirs_files (.dir n es)).contains x.1 =
        (ends_with x.1 ".theirs" && !x.2.2) := by
    intro x hx
    rw [hts, findL_eq_filterMap]
    rcases hcls : (ends_with x.1 ".theirs" && !x.2.2) with _ | _
    · rcases hcontains : List.contains _ x.1 with _ | _
      · rfl
      · exfalso
        have hmem := List.elem_iff.mp hcontains
        rcases List.mem_filterMap.mp hmem with ⟨y, hy, hfy⟩
        have hcy : (ends_with y.1 ".theirs" && !y.2.2) = true := by
          by_contra hmm
          simp only [Bool.not_eq_true] at hmm
          rw [hmm] at hfy
          simp at hfy
        rw [hcy] at hfy
        simp only [if_true] at hfy
        have hxy : y = x := List.inj_on_of_nodup_map hGnodup hy hx
          (Option.some_inj.mp hfy)
        rw [hxy] at hcy
        rw [hcls] at hcy
        exact absurd hcy (by simp)
    · apply List.elem_iff.mpr
      exact List.mem_filterMap.mpr ⟨x, hx, by rw [hcls]; simp⟩
  show allFilesL (n ++ "/") (removeL (n ++ "/") (find_theirs_files (.dir n es)) es) =
    (allFilesG (n ++ "/") (n == ".git") es).filterMap _
  rw [hroot]
  exact allFilesL_removeL (n ++ "/") false (find_theirs_files (.dir n es)) es hmemts

/-- Witness for C8 on a concrete working directory: `b.theirs` and
`sub/d.theirs` are deleted, while `a.txt`, `sub/e.txt` and the `.theirs`
file inside `.git` survive. -/
theorem resolve_cleanup_removes_exactly_theirs_witness :
    (("wd" == ".git") = false) ∧
    ((allFiles (.dir "wd"
        [.file "a.txt" "x", .file "b.theirs" "y",
         .dir ".git" [.file "c.theirs" "z"],
         .dir "sub" [.file "d.theirs" "w", .file "e.txt" "v"]])).map Prod.fst).Nodup ∧
    allFiles (resolve_cleanup (.dir "wd"
        [.file "a.txt" "x", .file "b.theirs" "y",
         .dir ".git" [.file "c.theirs" "z"],
         .dir "sub" [.file "d.theirs" "w", .file "e.txt" "v"]])) =
      (allFilesWithGitFlag (.dir "wd"
        [.file "a.txt" "x", .file "b.theirs" "y",
         .dir ".git" [.file "c.theirs" "z"],
         .dir "sub" [.file "d.theirs" "w", .file "e.txt" "v"]])).filterMap
        (fun x => if ends_with x.1 ".theirs" && !x.2.2 then none
                  else some (x.1, x.2.1)) := by
  have hnodup : ((allFiles (.dir "wd"
      [.file "a.txt" "x", .file "b.theirs" "y",
       .dir ".git" [.file "c.theirs" "z"],
       .dir "sub" [.file "d.theirs" "w", .file "e.txt" "v"]])).map Prod.fst).Nodup := by
    simp only [allFiles, allFilesL]
    decide
  exact ⟨by decide, hnodup, resolve_cleanup_removes_exactly_theirs "wd"
    [.file "a.txt" "x", .file "b.theirs" "y",
     .dir ".git" [.file "c.theirs" "z"],
     .dir "sub" [.file "d.theirs" "w", .file "e.txt" "v"]] (by decide) hnodup⟩

end GG
